import Mathlib

/-!
Verification of the sliding-log rate limiter in `src/rate_limiter.py`.

The Python class `FixedWindowRateLimiter` keeps, per client, a deque of
request timestamps.  `allowRequest(clientId, curr_time)` first pops entries
from the front of the client's deque while the front entry is at least
`window_size` old, then admits the request iff the remaining deque length is
strictly below `max_requests`, appending `curr_time` when admitted.

The embedding below is shallow: the per-client mapping (`defaultdict(deque)`)
becomes a function `κ → Option (List Int)` where `none` is an absent key and
reads default to the empty log; the `while` loop becomes the structural
recursion `expire`; timestamps and the two configuration values are integers.
-/

namespace RateLimiterSpec

/-- Error taxonomy the specification assigns to construction (§7). -/
inductive ConfigError : Type
  | invalidConfiguration
deriving DecidableEq

/-- State of one `FixedWindowRateLimiter` instance: the two configuration
fields set by `__init__` and the client→log mapping `request_logs`.
`none` models a key that is absent from the `defaultdict`. -/
structure FixedWindowRateLimiter (κ : Type) where
  max_requests : Int
  window_size : Int
  request_logs : κ → Option (List Int)

/-- The `while` loop of `allowRequest` (lines 49–50): pop from the front while
the front entry satisfies `curr_time - ts >= window_size`; stop at the first
non-expired entry. -/
def expire (window_size curr_time : Int) : List Int → List Int
  | [] => []
  | ts :: rest =>
      if window_size ≤ curr_time - ts then expire window_size curr_time rest
      else ts :: rest

/-- The body of `allowRequest` acting on a single client's log: expire the
front, admit iff the remaining length is strictly below `max_requests`, and
append `curr_time` exactly when admitted.  Returns the decision and the new
log. -/
def stepLog (max_requests window_size curr_time : Int) (log : List Int) :
    Bool × List Int :=
  let pruned := expire window_size curr_time log
  let valid : Bool := decide ((pruned.length : Int) < max_requests)
  (valid, if valid then pruned ++ [curr_time] else pruned)

namespace FixedWindowRateLimiter

variable {κ : Type} [DecidableEq κ]

/-- Python `__init__` (lines 40–44): stores the two configuration values unchecked
and starts from an empty mapping. -/
def init (max_requests window_size : Int) : FixedWindowRateLimiter κ :=
  ⟨max_requests, window_size, fun _ => none⟩

/-- Python `__init__` embedded as a fallible constructor.  The Python code performs
no validation and has no raise path, so every input yields `ok`. -/
def initE (max_requests window_size : Int) :
    Except ConfigError (FixedWindowRateLimiter κ) :=
  .ok (init max_requests window_size)

/-- Constructor following the specification's words (§7): reject
`max_requests <= 0` or `window_size <= 0` with `InvalidConfiguration`.
Spec-side definition, stated only to compare with `initE`. -/
def initSpec (max_requests window_size : Int) :
    Except ConfigError (FixedWindowRateLimiter κ) :=
  if max_requests ≤ 0 ∨ window_size ≤ 0 then .error .invalidConfiguration
  else .ok (init max_requests window_size)

/-- What a read of `self.request_logs[clientId]` sees: the stored deque, or
the defaultdict's fresh empty deque when the key is absent. -/
def clientLog (s : FixedWindowRateLimiter κ) (c : κ) : List Int :=
  (s.request_logs c).getD []

/-- Method `allowRequest` (lines 46–58): expire the front of the client's log,
decide by strict comparison with `max_requests`, record the time when
admitted.  The mapping entry for `clientId` is written back (the defaultdict
materialises it even on denial); all other entries are untouched. -/
def allowRequest (s : FixedWindowRateLimiter κ) (clientId : κ) (curr_time : Int) :
    Bool × FixedWindowRateLimiter κ :=
  let r := stepLog s.max_requests s.window_size curr_time (s.clientLog clientId)
  (r.1, ⟨s.max_requests, s.window_size,
    fun c => if c = clientId then some r.2 else s.request_logs c⟩)

end FixedWindowRateLimiter

variable {κ : Type} [DecidableEq κ]

/-- Run a sequence of `allowRequest` calls, returning the final state. -/
def runCalls (s : FixedWindowRateLimiter κ) : List (κ × Int) → FixedWindowRateLimiter κ
  | [] => s
  | (c, t) :: calls => runCalls (s.allowRequest c t).2 calls

/-- The booleans returned, in order, for the calls made by client `c` within
a call sequence. -/
def resultsFor (c : κ) (s : FixedWindowRateLimiter κ) : List (κ × Int) → List Bool
  | [] => []
  | (c', t) :: calls =>
      if c' = c then
        (s.allowRequest c' t).1 :: resultsFor c (s.allowRequest c' t).2 calls
      else resultsFor c (s.allowRequest c' t).2 calls

/-- The timestamps of the calls by client `c` that were admitted, in order. -/
def admittedFor (c : κ) (s : FixedWindowRateLimiter κ) : List (κ × Int) → List Int
  | [] => []
  | (c', t) :: calls =>
      if c' = c ∧ (s.allowRequest c' t).1 = true then
        t :: admittedFor c (s.allowRequest c' t).2 calls
      else admittedFor c (s.allowRequest c' t).2 calls

/-- The timestamps of all calls made by client `c`, in order. -/
def timesFor (c : κ) : List (κ × Int) → List Int
  | [] => []
  | (c', t) :: calls => if c' = c then t :: timesFor c calls else timesFor c calls

/-- Single-client projection of a run: the final log after processing a list
of timestamps against one log. -/
def logRun (max_requests window_size : Int) (log : List Int) : List Int → List Int
  | [] => log
  | t :: ts =>
      logRun max_requests window_size (stepLog max_requests window_size t log).2 ts

/-- Single-client projection of a run: the decisions produced while
processing a list of timestamps against one log. -/
def resultsRun (max_requests window_size : Int) (log : List Int) : List Int → List Bool
  | [] => []
  | t :: ts =>
      (stepLog max_requests window_size t log).1 ::
        resultsRun max_requests window_size (stepLog max_requests window_size t log).2 ts

/-- Single-client projection of a run: the admitted timestamps produced while
processing a list of timestamps against one log. -/
def admittedRun (max_requests window_size : Int) (log : List Int) : List Int → List Int
  | [] => []
  | t :: ts =>
      if (stepLog max_requests window_size t log).1 then
        t :: admittedRun max_requests window_size (stepLog max_requests window_size t log).2 ts
      else admittedRun max_requests window_size (stepLog max_requests window_size t log).2 ts

/-- Membership in the half-open window `[x, x + window_size)` of length
`window_size` (spec glossary: a window is `[currentTime - windowSize, currentTime)`). -/
def inWindow (x window_size t : Int) : Bool := decide (x ≤ t ∧ t < x + window_size)

/-! ## Basic lemmas about one call -/

theorem expire_eq_dropWhile (window_size curr_time : Int) (log : List Int) :
    expire window_size curr_time log =
      log.dropWhile (fun ts => decide (window_size ≤ curr_time - ts)) := by
  induction log with
  | nil => rfl
  | cons a l ih =>
    by_cases h : window_size ≤ curr_time - a
    · simp [expire, h, List.dropWhile_cons, ih]
    · simp [expire, h, List.dropWhile_cons]

theorem allowRequest_fst (s : FixedWindowRateLimiter κ) (c : κ) (t : Int) :
    (s.allowRequest c t).1 =
      (stepLog s.max_requests s.window_size t (s.clientLog c)).1 := rfl

theorem allowRequest_clientLog (s : FixedWindowRateLimiter κ) (c : κ) (t : Int) :
    (s.allowRequest c t).2.clientLog c =
      (stepLog s.max_requests s.window_size t (s.clientLog c)).2 := by
  simp [FixedWindowRateLimiter.allowRequest, FixedWindowRateLimiter.clientLog]

theorem allowRequest_frame (s : FixedWindowRateLimiter κ) (c : κ) (t : Int)
    (c' : κ) (h : c' ≠ c) :
    (s.allowRequest c t).2.request_logs c' = s.request_logs c' := by
  simp [FixedWindowRateLimiter.allowRequest, h]

theorem allowRequest_max (s : FixedWindowRateLimiter κ) (c : κ) (t : Int) :
    (s.allowRequest c t).2.max_requests = s.max_requests := rfl

theorem allowRequest_window (s : FixedWindowRateLimiter κ) (c : κ) (t : Int) :
    (s.allowRequest c t).2.window_size = s.window_size := rfl

/-! ## Claim theorems: per-call behaviour -/

/-- C1: `allowRequest(clientId, currentTime)` first removes the expired front
of the client's log (every leading `ts` with `currentTime - ts ≥ windowSize`,
i.e. a `dropWhile`), and returns `true` iff the remaining length is strictly
below `max_requests`; the stored log is the pruned log, with `currentTime`
appended exactly when admitted. -/
theorem allowRequest_expire_decide (s : FixedWindowRateLimiter κ) (c : κ) (t : Int) :
    ((s.allowRequest c t).1 = true ↔
      ((((s.clientLog c).dropWhile fun ts => decide (s.window_size ≤ t - ts)).length : Int)
        < s.max_requests)) ∧
    (s.allowRequest c t).2.clientLog c =
      (if (s.allowRequest c t).1 then
        ((s.clientLog c).dropWhile fun ts => decide (s.window_size ≤ t - ts)) ++ [t]
      else (s.clientLog c).dropWhile fun ts => decide (s.window_size ≤ t - ts)) := by
  simp only [← expire_eq_dropWhile]
  refine ⟨by simp [FixedWindowRateLimiter.allowRequest, stepLog], ?_⟩
  rw [allowRequest_clientLog, allowRequest_fst]
  simp only [stepLog]

/-- C6: if the request is admitted, `curr_time` is appended at the end of the
post-expiry log (the log grows by exactly one element past the post-expiry
state); if it is denied, nothing is appended. -/
theorem record_iff_admitted (s : FixedWindowRateLimiter κ) (c : κ) (t : Int) :
    (s.allowRequest c t).2.clientLog c =
      (if (s.allowRequest c t).1 then expire s.window_size t (s.clientLog c) ++ [t]
       else expire s.window_size t (s.clientLog c)) ∧
    ((s.allowRequest c t).2.clientLog c).length =
      (expire s.window_size t (s.clientLog c)).length +
        (if (s.allowRequest c t).1 then 1 else 0) := by
  rw [allowRequest_clientLog, allowRequest_fst]
  simp only [stepLog]
  by_cases h : ((expire s.window_size t (s.clientLog c)).length : Int) < s.max_requests <;>
    simp [h]

/-- C9: a call for `clientId` leaves every other client's mapping entry
(absent or present, and its contents) untouched. -/
theorem frame_other_clients (s : FixedWindowRateLimiter κ) (c : κ) (t : Int)
    (c' : κ) (h : c' ≠ c) :
    (s.allowRequest c t).2.request_logs c' = s.request_logs c' := by
  simp [FixedWindowRateLimiter.allowRequest, h]

/-- Witness for C9 at a concrete state: a call for client 0 does not touch
client 1's (absent) entry. -/
theorem frame_other_clients_witness :
    (1 : Nat) ≠ 0 ∧
    ((FixedWindowRateLimiter.init (κ := Nat) 1 5).allowRequest 0 3).2.request_logs 1 =
      (FixedWindowRateLimiter.init (κ := Nat) 1 5).request_logs 1 :=
  ⟨by decide, frame_other_clients (FixedWindowRateLimiter.init 1 5) 0 3 1 (by decide)⟩

/-- C10: a denied call is not state-neutral: the client's log after the call
is the log before the call with its expired front removed (expiry still
happened; only the append was skipped). -/
theorem denied_still_prunes (s : FixedWindowRateLimiter κ) (c : κ) (t : Int)
    (h : (s.allowRequest c t).1 = false) :
    (s.allowRequest c t).2.clientLog c =
      (s.clientLog c).dropWhile fun ts => decide (s.window_size ≤ t - ts) := by
  rw [allowRequest_clientLog, ← expire_eq_dropWhile]
  rw [allowRequest_fst] at h
  simp only [stepLog] at h ⊢
  simp [h]

/-- Witness for C10 at a concrete denied call: with `max_requests = 1`, after
an admitted call at time 1 a second call at time 2 is denied, and the stored
log is the pruned pre-call log (here: unchanged, `[1]`). -/
theorem denied_still_prunes_witness :
    ((runCalls (FixedWindowRateLimiter.init (κ := Nat) 1 10) [(0, 1)]).allowRequest 0 2).1
        = false ∧
    ((runCalls (FixedWindowRateLimiter.init (κ := Nat) 1 10) [(0, 1)]).allowRequest 0 2).2.clientLog 0
      = ((runCalls (FixedWindowRateLimiter.init (κ := Nat) 1 10) [(0, 1)]).clientLog 0).dropWhile
          fun ts => decide ((10 : Int) ≤ 2 - ts) :=
  ⟨by decide,
    denied_still_prunes (runCalls (FixedWindowRateLimiter.init 1 10) [(0, 1)]) 0 2 (by decide)⟩

/-- C3 counterexample: at `max_requests = 0, window_size = 10` the code's
constructor succeeds (`__init__` has no validation and no raise path), while
the constructor written from the specification's words rejects this input
with `InvalidConfiguration`. -/
theorem construction_counterexample :
    FixedWindowRateLimiter.initE (κ := Nat) 0 10 =
      .ok (FixedWindowRateLimiter.init 0 10) ∧
    FixedWindowRateLimiter.initSpec (κ := Nat) 0 10 =
      .error ConfigError.invalidConfiguration :=
  ⟨rfl, by simp [FixedWindowRateLimiter.initSpec]⟩

/-- C3 amended: construction never validates its arguments: for every
`max_requests` and `window_size` (zero and negative included) it succeeds and
yields a limiter with an empty client-log mapping. -/
theorem construction_no_validation (max_requests window_size : Int) (c : Nat) :
    FixedWindowRateLimiter.initE (κ := Nat) max_requests window_size =
      .ok (FixedWindowRateLimiter.init max_requests window_size) ∧
    (FixedWindowRateLimiter.init (κ := Nat) max_requests window_size).request_logs c = none :=
  ⟨rfl, rfl⟩

/-- C4: the boundary scenario with `max_requests = 2, window_size = 10` and
client "A": calls at t=1, 2, 2, 11 return true, true, false, true, and the
final log of "A" is `[2, 11]`. -/
theorem boundary_scenario :
    resultsFor "A" (FixedWindowRateLimiter.init (κ := String) 2 10)
      [("A", 1), ("A", 2), ("A", 2), ("A", 11)] = [true, true, false, true] ∧
    (runCalls (FixedWindowRateLimiter.init (κ := String) 2 10)
      [("A", 1), ("A", 2), ("A", 2), ("A", 11)]).clientLog "A" = [2, 11] := by
  exact ⟨by decide, by decide⟩

/-! ## Projection of a multi-client run onto one client -/

theorem allowRequest_clientLog_frame (s : FixedWindowRateLimiter κ) (c : κ) (t : Int)
    (c' : κ) (h : c' ≠ c) :
    (s.allowRequest c t).2.clientLog c' = s.clientLog c' := by
  simp [FixedWindowRateLimiter.clientLog, allowRequest_frame s c t c' h]

theorem runCalls_max : ∀ (calls : List (κ × Int)) (s : FixedWindowRateLimiter κ),
    (runCalls s calls).max_requests = s.max_requests := by
  intro calls
  induction calls with
  | nil => intro s; rfl
  | cons p calls ih => intro s; obtain ⟨c, t⟩ := p; exact ih (s.allowRequest c t).2

theorem runCalls_window : ∀ (calls : List (κ × Int)) (s : FixedWindowRateLimiter κ),
    (runCalls s calls).window_size = s.window_size := by
  intro calls
  induction calls with
  | nil => intro s; rfl
  | cons p calls ih => intro s; obtain ⟨c, t⟩ := p; exact ih (s.allowRequest c t).2

theorem resultsFor_eq_resultsRun :
    ∀ (calls : List (κ × Int)) (s : FixedWindowRateLimiter κ) (c : κ),
      resultsFor c s calls =
        resultsRun s.max_requests s.window_size (s.clientLog c) (timesFor c calls) := by
  intro calls
  induction calls with
  | nil => intro s c; rfl
  | cons p calls ih =>
    intro s c
    obtain ⟨c', t⟩ := p
    by_cases h : c' = c
    · subst h
      simp [resultsFor, timesFor, resultsRun, ih, allowRequest_clientLog,
        allowRequest_fst, allowRequest_max, allowRequest_window]
    · simp only [resultsFor, timesFor, if_neg h, ih, allowRequest_max, allowRequest_window,
        allowRequest_clientLog_frame s c' t c (Ne.symm h)]

theorem admittedFor_eq_admittedRun :
    ∀ (calls : List (κ × Int)) (s : FixedWindowRateLimiter κ) (c : κ),
      admittedFor c s calls =
        admittedRun s.max_requests s.window_size (s.clientLog c) (timesFor c calls) := by
  intro calls
  induction calls with
  | nil => intro s c; rfl
  | cons p calls ih =>
    intro s c
    obtain ⟨c', t⟩ := p
    by_cases h : c' = c
    · subst h
      simp [admittedFor, timesFor, admittedRun, ih, allowRequest_clientLog,
        allowRequest_fst, allowRequest_max, allowRequest_window]
    · have hne : ¬(c' = c ∧ (s.allowRequest c' t).1 = true) := fun hc => h hc.1
      simp only [admittedFor, timesFor, if_neg h, if_neg hne, ih, allowRequest_max,
        allowRequest_window, allowRequest_clientLog_frame s c' t c (Ne.symm h)]

theorem runCalls_clientLog_eq :
    ∀ (calls : List (κ × Int)) (s : FixedWindowRateLimiter κ) (c : κ),
      (runCalls s calls).clientLog c =
        logRun s.max_requests s.window_size (s.clientLog c) (timesFor c calls) := by
  intro calls
  induction calls with
  | nil => intro s c; rfl
  | cons p calls ih =>
    intro s c
    obtain ⟨c', t⟩ := p
    by_cases h : c' = c
    · subst h
      simp only [runCalls, timesFor, if_pos rfl, logRun, ih, allowRequest_clientLog,
        allowRequest_max, allowRequest_window]
    · simp only [runCalls, timesFor, if_neg h, ih, allowRequest_max, allowRequest_window,
        allowRequest_clientLog_frame s c' t c (Ne.symm h)]

/-! ## Claim theorems: independence and log-size bound -/

/-- C5: admission decisions are per-client independent: two call sequences
that agree on the subsequence of calls for client `A` (same timestamps, same
relative order) produce identical results for `A`'s calls, however the other
clients' calls differ. -/
theorem client_independence (max_requests window_size : Int) (A : κ)
    (cs₁ cs₂ : List (κ × Int)) (h : timesFor A cs₁ = timesFor A cs₂) :
    resultsFor A (FixedWindowRateLimiter.init max_requests window_size) cs₁ =
      resultsFor A (FixedWindowRateLimiter.init max_requests window_size) cs₂ := by
  rw [resultsFor_eq_resultsRun, resultsFor_eq_resultsRun, h]

/-- Witness for C5: client 1's calls give the same results whether client 2
interleaves one call or two different ones. -/
theorem client_independence_witness :
    timesFor 1 [((1 : Nat), (5 : Int)), (2, 3)] =
      timesFor 1 [((1 : Nat), (5 : Int)), (2, 7), (2, 8)] ∧
    resultsFor 1 (FixedWindowRateLimiter.init (κ := Nat) 1 10) [(1, 5), (2, 3)] =
      resultsFor 1 (FixedWindowRateLimiter.init (κ := Nat) 1 10) [(1, 5), (2, 7), (2, 8)] :=
  ⟨by decide, client_independence 1 10 1 [(1, 5), (2, 3)] [(1, 5), (2, 7), (2, 8)] (by decide)⟩

theorem expire_length_le (window_size curr_time : Int) (log : List Int) :
    (expire window_size curr_time log).length ≤ log.length := by
  induction log with
  | nil => exact Nat.le_refl 0
  | cons a l ih =>
    by_cases h : window_size ≤ curr_time - a
    · simp only [expire, if_pos h]
      exact Nat.le_succ_of_le ih
    · simp [expire, if_neg h]

theorem stepLog_length_bound (max_requests window_size curr_time : Int) (log : List Int)
    (h : (log.length : Int) ≤ max max_requests 0) :
    (((stepLog max_requests window_size curr_time log).2).length : Int) ≤ max max_requests 0 := by
  simp only [stepLog, decide_eq_true_eq]
  have hm := le_max_left max_requests (0 : Int)
  by_cases hv : ((expire window_size curr_time log).length : Int) < max_requests
  · rw [if_pos hv]
    simp only [List.length_append, List.length_cons, List.length_nil]
    omega
  · rw [if_neg hv]
    have := expire_length_le window_size curr_time log
    omega

theorem logRun_length_bound (max_requests window_size : Int) :
    ∀ (ts : List Int) (log : List Int), (log.length : Int) ≤ max max_requests 0 →
      ((logRun max_requests window_size log ts).length : Int) ≤ max max_requests 0 := by
  intro ts
  induction ts with
  | nil => intro log h; exact h
  | cons t ts ih =>
    intro log h
    exact ih _ (stepLog_length_bound max_requests window_size t log h)

/-- C8: in every reachable state, every client's log has length at most
`max(max_requests, 0)`: appends happen only below `max_requests`, expiry only
shrinks the log. -/
theorem log_length_bound (max_requests window_size : Int) (cs : List (κ × Int)) (c : κ) :
    (((runCalls (FixedWindowRateLimiter.init max_requests window_size) cs).clientLog c).length : Int)
      ≤ max max_requests 0 := by
  rw [runCalls_clientLog_eq]
  exact logRun_length_bound max_requests window_size (timesFor c cs) [] (by simp)

/-! ## The expired prefix, sortedness, and freshness -/

theorem expire_drop (window_size curr_time : Int) :
    ∀ log : List Int, ∃ j, j ≤ log.length ∧
      expire window_size curr_time log = log.drop j ∧
      ∀ e ∈ log.take j, window_size ≤ curr_time - e := by
  intro log
  induction log with
  | nil => exact ⟨0, Nat.le_refl 0, rfl, by simp⟩
  | cons a l ih =>
    by_cases h : window_size ≤ curr_time - a
    · obtain ⟨j, hj1, hj2, hj3⟩ := ih
      refine ⟨j + 1, Nat.succ_le_succ hj1, ?_, ?_⟩
      · simp [expire, h, hj2]
      · intro e he
        rw [List.take_succ_cons] at he
        rcases List.mem_cons.mp he with rfl | he'
        · exact h
        · exact hj3 e he'
    · exact ⟨0, Nat.zero_le _, by simp [expire, h], by simp⟩

theorem expire_mem (window_size curr_time : Int) (log : List Int) (e : Int)
    (h : e ∈ expire window_size curr_time log) : e ∈ log := by
  obtain ⟨j, _, hj2, _⟩ := expire_drop window_size curr_time log
  rw [hj2] at h
  exact (List.drop_sublist j log).subset h

theorem expire_pairwise (window_size curr_time : Int) (log : List Int)
    (h : log.Pairwise (· ≤ ·)) :
    (expire window_size curr_time log).Pairwise (· ≤ ·) := by
  obtain ⟨j, _, hj2, _⟩ := expire_drop window_size curr_time log
  rw [hj2]
  exact h.sublist (List.drop_sublist j log)

theorem expire_fresh (window_size curr_time : Int) :
    ∀ log : List Int, log.Pairwise (· ≤ ·) →
      ∀ e ∈ expire window_size curr_time log, curr_time - e < window_size := by
  intro log
  induction log with
  | nil => intro _ e he; simp [expire] at he
  | cons a l ih =>
    intro hpw e he
    obtain ⟨ha, hl⟩ := List.pairwise_cons.mp hpw
    by_cases h : window_size ≤ curr_time - a
    · rw [expire, if_pos h] at he
      exact ih hl e he
    · rw [expire, if_neg h] at he
      rcases List.mem_cons.mp he with rfl | he'
      · omega
      · have := ha e he'
        omega

theorem stepLog_fresh (max_requests window_size curr_time : Int) (log : List Int)
    (hT : 0 < window_size) (hpw : log.Pairwise (· ≤ ·)) :
    ∀ e ∈ (stepLog max_requests window_size curr_time log).2,
      curr_time - e < window_size := by
  intro e he
  simp only [stepLog, decide_eq_true_eq] at he
  by_cases hv : ((expire window_size curr_time log).length : Int) < max_requests
  · rw [if_pos hv] at he
    rcases List.mem_append.mp he with he' | he'
    · exact expire_fresh window_size curr_time log hpw e he'
    · have : e = curr_time := List.mem_singleton.mp he'
      subst this
      omega
  · rw [if_neg hv] at he
    exact expire_fresh window_size curr_time log hpw e he

theorem logRun_pairwise (max_requests window_size : Int) :
    ∀ (ts log : List Int), ts.Pairwise (· ≤ ·) → log.Pairwise (· ≤ ·) →
      (∀ e ∈ log, ∀ u ∈ ts, e ≤ u) →
      (logRun max_requests window_size log ts).Pairwise (· ≤ ·) := by
  intro ts
  induction ts with
  | nil => intro log _ hlog _; exact hlog
  | cons t ts ih =>
    intro log hts hlog hbd
    obtain ⟨ht, hts'⟩ := List.pairwise_cons.mp hts
    apply ih _ hts'
    · simp only [stepLog, decide_eq_true_eq]
      by_cases hv : ((expire window_size t log).length : Int) < max_requests
      · rw [if_pos hv]
        rw [List.pairwise_append]
        refine ⟨expire_pairwise _ _ _ hlog, List.pairwise_singleton _ _, ?_⟩
        intro a ha b hb
        have : b = t := List.mem_singleton.mp hb
        subst this
        exact hbd a (expire_mem _ _ _ _ ha) b (List.mem_cons_self b ts)
      · rw [if_neg hv]
        exact expire_pairwise _ _ _ hlog
    · intro e he u hu
      simp only [stepLog, decide_eq_true_eq] at he
      by_cases hv : ((expire window_size t log).length : Int) < max_requests
      · rw [if_pos hv] at he
        rcases List.mem_append.mp he with he' | he'
        · exact hbd e (expire_mem _ _ _ _ he') u (List.mem_cons_of_mem t hu)
        · have : e = t := List.mem_singleton.mp he'
          subst this
          exact ht u hu
      · rw [if_neg hv] at he
        exact hbd e (expire_mem _ _ _ _ he) u (List.mem_cons_of_mem t hu)

theorem logRun_append (max_requests window_size : Int) :
    ∀ (ts : List Int) (log : List Int) (t : Int),
      logRun max_requests window_size log (ts ++ [t]) =
        (stepLog max_requests window_size t (logRun max_requests window_size log ts)).2 := by
  intro ts
  induction ts with
  | nil => intro log t; rfl
  | cons u ts ih => intro log t; exact ih _ t

theorem timesFor_append (c : κ) (cs₁ cs₂ : List (κ × Int)) :
    timesFor c (cs₁ ++ cs₂) = timesFor c cs₁ ++ timesFor c cs₂ := by
  induction cs₁ with
  | nil => rfl
  | cons p cs ih =>
    obtain ⟨c', t⟩ := p
    by_cases h : c' = c <;> simp [timesFor, h, ih]

/-- C7: under non-decreasing timestamps for a client, no stale entry survives
a call: immediately after `allowRequest(c, t)` (here: as the last call of a
run from a fresh limiter), every timestamp `e` retained in `c`'s log
satisfies `t - e < window_size`. -/
theorem no_stale_entries (max_requests window_size : Int) (cs : List (κ × Int))
    (c : κ) (t : Int) (hT : 0 < window_size)
    (hmono : (timesFor c cs ++ [t]).Pairwise (· ≤ ·)) :
    ∀ e ∈ (runCalls (FixedWindowRateLimiter.init max_requests window_size)
        (cs ++ [(c, t)])).clientLog c,
      t - e < window_size := by
  intro e he
  rw [runCalls_clientLog_eq, timesFor_append] at he
  simp only [timesFor, eq_self_iff_true, if_true] at he
  rw [logRun_append] at he
  have hts : (timesFor c cs).Pairwise (· ≤ ·) :=
    hmono.sublist (List.sublist_append_left _ _)
  have hlog : (logRun max_requests window_size
      ((FixedWindowRateLimiter.init (κ := κ) max_requests window_size).clientLog c)
      (timesFor c cs)).Pairwise (· ≤ ·) := by
    apply logRun_pairwise _ _ _ _ hts List.Pairwise.nil
    intro a ha
    exact absurd ha (List.not_mem_nil a)
  exact stepLog_fresh _ _ _ _ hT hlog e he

/-- Witness for C7: with `max_requests = 2, window_size = 10` and calls for
client 0 at times 1, 2 and finally 11, the retained entry 2 is fresh. -/
theorem no_stale_entries_witness :
    (0 : Int) < 10 ∧
    ((timesFor 0 [((0 : Nat), (1 : Int)), (0, 2)] ++ [11]).Pairwise (· ≤ ·)) ∧
    (2 : Int) ∈ (runCalls (FixedWindowRateLimiter.init (κ := Nat) 2 10)
        ([(0, 1), (0, 2)] ++ [(0, 11)])).clientLog 0 ∧
    (11 : Int) - 2 < 10 :=
  ⟨by decide, by decide, by decide,
    no_stale_entries 2 10 [(0, 1), (0, 2)] 0 11 (by decide) (by decide) 2 (by decide)⟩

/-! ## Capacity: at most `max_requests` admissions per window -/

theorem admittedRun_cons (max_requests window_size t : Int) (log : List Int)
    (ts : List Int) :
    admittedRun max_requests window_size log (t :: ts) =
      if ((expire window_size t log).length : Int) < max_requests then
        t :: admittedRun max_requests window_size (expire window_size t log ++ [t]) ts
      else admittedRun max_requests window_size (expire window_size t log) ts := by
  simp only [admittedRun, stepLog, decide_eq_true_eq]
  by_cases hv : ((expire window_size t log).length : Int) < max_requests
  · rw [if_pos hv, if_pos hv, if_pos hv]
  · rw [if_neg hv, if_neg hv, if_neg hv]

theorem admittedRun_window_bound (max_requests window_size x : Int) :
    ∀ (ts done : List Int) (k : Nat), ts.Pairwise (· ≤ ·) → k ≤ done.length →
      (∀ e ∈ done.take k, ∀ u ∈ ts, window_size ≤ u - e) →
      List.countP (inWindow x window_size)
          (done ++ admittedRun max_requests window_size (done.drop k) ts) ≤
        max (List.countP (inWindow x window_size) done) max_requests.toNat := by
  intro ts
  induction ts with
  | nil =>
    intro done k _ _ _
    simp only [admittedRun, List.append_nil]
    exact le_max_left _ _
  | cons t ts ih =>
    intro done k hpw hk hexp
    obtain ⟨ht, hts⟩ := List.pairwise_cons.mp hpw
    obtain ⟨j, hj, hdropj, htakej⟩ := expire_drop window_size t (done.drop k)
    have hlen : (done.drop k).length = done.length - k := List.length_drop k done
    have hk' : k + j ≤ done.length := by omega
    have hdrop' : expire window_size t (done.drop k) = done.drop (k + j) := by
      rw [hdropj]
      exact List.drop_drop j k done
    have htake' : ∀ e ∈ done.take (k + j), ∀ u ∈ t :: ts, window_size ≤ u - e := by
      intro e he u hu
      rw [List.take_add] at he
      rcases List.mem_append.mp he with he' | he'
      · exact hexp e he' u hu
      · have h1 : window_size ≤ t - e := htakej e he'
        rcases List.mem_cons.mp hu with rfl | hu'
        · exact h1
        · have h2 : t ≤ u := ht u hu'
          omega
    rw [admittedRun_cons, hdrop']
    by_cases hv : ((done.drop (k + j)).length : Int) < max_requests
    · rw [if_pos hv]
      rw [← List.drop_append_of_le_length hk']
      have hIH := ih (done ++ [t]) (k + j)
        hts
        (by simp only [List.length_append, List.length_cons, List.length_nil]; omega)
        (by
          rw [List.take_append_of_le_length hk']
          intro e he u hu
          exact htake' e he u (List.mem_cons_of_mem t hu))
      rw [List.append_cons done t _]
      refine le_trans hIH ?_
      have hsplit : List.countP (inWindow x window_size) (done ++ [t]) =
          List.countP (inWindow x window_size) done +
            (if inWindow x window_size t then 1 else 0) := by
        simp [List.countP_append, List.countP_cons]
      rw [hsplit]
      have hite : (if inWindow x window_size t then 1 else 0) ≤ 1 := by
        by_cases hw : inWindow x window_size t = true <;> simp [hw]
      have hcount : List.countP (inWindow x window_size) done < max_requests.toNat ∨
          inWindow x window_size t = false := by
        by_cases hw : inWindow x window_size t = true
        · left
          have himp : ∀ a ∈ done, inWindow x window_size a = true →
              decide (t - a < window_size) = true := by
            intro a _ hpa
            simp only [inWindow, decide_eq_true_eq] at hpa hw ⊢
            omega
          have h1 := List.countP_mono_left himp
          have h2 : List.countP (fun a => decide (t - a < window_size)) done =
              List.countP (fun a => decide (t - a < window_size)) (done.take (k + j)) +
                List.countP (fun a => decide (t - a < window_size)) (done.drop (k + j)) := by
            rw [← List.countP_append, List.take_append_drop]
          have h3 : List.countP (fun a => decide (t - a < window_size))
              (done.take (k + j)) = 0 := by
            rw [List.countP_eq_zero]
            intro a ha
            have h4 := htake' a ha t (List.mem_cons_self t ts)
            simp only [decide_eq_true_eq]
            omega
          have h5 : List.countP (fun a => decide (t - a < window_size))
                (done.drop (k + j)) ≤ (done.drop (k + j)).length :=
            List.countP_le_length _
          omega
        · right
          cases hb : inWindow x window_size t
          · rfl
          · exact absurd hb hw
      rcases hcount with hc | hc
      · omega
      · have he0 : (if inWindow x window_size t then 1 else 0) = 0 := by simp [hc]
        omega
    · rw [if_neg hv]
      exact ih done (k + j) hts hk'
        (fun e he u hu => htake' e he u (List.mem_cons_of_mem t hu))

/-- C2: capacity invariant: for every client, every call sequence with
non-decreasing timestamps for that client, and every window
`[x, x + window_size)` of length `window_size`, the number of admitted calls
of that client whose timestamps fall in the window is at most
`max_requests`. -/
theorem capacity_invariant (max_requests window_size : Int) (hR : 0 < max_requests)
    (c : κ) (cs : List (κ × Int)) (hmono : (timesFor c cs).Pairwise (· ≤ ·)) (x : Int) :
    ((admittedFor c (FixedWindowRateLimiter.init max_requests window_size) cs).countP
        (inWindow x window_size) : Int) ≤ max_requests := by
  have h := admittedRun_window_bound max_requests window_size x (timesFor c cs) [] 0
    hmono (Nat.le_refl 0) (by simp)
  simp only [List.countP_nil, List.drop_zero, List.nil_append] at h
  rw [admittedFor_eq_admittedRun]
  show ((admittedRun max_requests window_size [] (timesFor c cs)).countP
      (inWindow x window_size) : Int) ≤ max_requests
  omega

/-- Witness for C2: the boundary scenario admits three requests overall, but
any window of length 10 (here `[0, 10)`) contains at most 2 of them. -/
theorem capacity_invariant_witness :
    (0 : Int) < 2 ∧
    (timesFor 0 [((0 : Nat), (1 : Int)), (0, 2), (0, 2), (0, 11)]).Pairwise (· ≤ ·) ∧
    ((admittedFor 0 (FixedWindowRateLimiter.init (κ := Nat) 2 10)
        [(0, 1), (0, 2), (0, 2), (0, 11)]).countP (inWindow 0 10) : Int) ≤ 2 :=
  ⟨by decide, by decide,
    capacity_invariant 2 10 (by decide) 0 [(0, 1), (0, 2), (0, 2), (0, 11)] (by decide) 0⟩

end RateLimiterSpec
